import Mathlib

/-
  Verification development for the auto_daytime tool (src/main.rs).

  The Rust source is embedded shallowly:
  * strings are `List Char` (`str` converts a Lean string literal);
  * file contents are `List Char`, a possibly-absent file is `Option (List Char)`;
  * the regex `colors: \*(([_\w]+)(light|dark)([_\w]+))` with leftmost-first
    (greedy, backtracking) capture semantics is implemented directly;
  * the regex `\w` class is modelled on its ASCII fragment `[A-Za-z0-9_]`;
  * `SunState`, and the file/session manipulating functions, keep their
    source names; effectful functions become pure functions from old file
    contents to new file contents.
-/

namespace AutoDaytime

inductive SunState
  | Up
  | Down
deriving DecidableEq, Repr

def str (s : String) : List Char := s.data

/-- The literal token `light` of the regex alternation `(light|dark)`. -/
def LIGHT : List Char := ['l', 'i', 'g', 'h', 't']

/-- The literal token `dark` of the regex alternation `(light|dark)`. -/
def DARK : List Char := ['d', 'a', 'r', 'k']

/-- The literal part `colors: \*` of the regex in `set_static_alacritty_config`. -/
def COLORS : List Char := ['c', 'o', 'l', 'o', 'r', 's', ':', ' ', '*']

/-- `state_string` in `set_static_alacritty_config`: Up ↦ "light", Down ↦ "dark". -/
def stateToken : SunState → List Char
  | SunState.Up => LIGHT
  | SunState.Down => DARK

/-- ASCII fragment of the regex character class `[_\w]`. -/
def isWordChar (c : Char) : Bool := c.isAlphanum || c == '_'

/-- If `l` begins with `light` or `dark`, return the token (the alternation tries
`light` first) and the rest of `l`; models matching `(light|dark)` at a position. -/
def modeAt (l : List Char) : Option (List Char × List Char) :=
  if LIGHT.isPrefixOf l then some (LIGHT, l.drop 5)
  else if DARK.isPrefixOf l then some (DARK, l.drop 4)
  else none

/-- Try to match `([_\w]+)(light|dark)([_\w]+)` against `run` (a run of word
characters) with the first group of length exactly `n`: the mode token must
follow the first `n` characters and at least one character must remain for the
greedy third group, which takes everything left in the run. -/
def trySplit (run : List Char) (n : Nat) :
    Option (List Char × List Char × List Char) :=
  match modeAt (run.drop n) with
  | some (m, s) => if s = [] then none else some (run.take n, m, s)
  | none => none

/-- Greedy backtracking over the length of the first group `([_\w]+)`: the
longest length is tried first, down to length 1. -/
def splitSearch (run : List Char) : Nat → Option (List Char × List Char × List Char)
  | 0 => none
  | n + 1 =>
    match trySplit run (n + 1) with
    | some r => some r
    | none => splitSearch run n

/-- Capture groups 2-4 of the regex against a maximal word-character run. -/
def splitRun (run : List Char) : Option (List Char × List Char × List Char) :=
  splitSearch run run.length

/-- `Regex::captures` for `colors: \*(([_\w]+)(light|dark)([_\w]+))`: scan for the
leftmost start position whose tail begins with the literal `colors: *` and whose
following word-character run admits the group structure; return groups 2-4. -/
def capturesFrom : List Char → Option (List Char × List Char × List Char)
  | [] => none
  | c :: cs =>
    if COLORS.isPrefixOf (c :: cs) then
      match splitRun (((c :: cs).drop COLORS.length).takeWhile isWordChar) with
      | some r => some r
      | none => capturesFrom cs
    else capturesFrom cs

/-- The per-line body of the `map` in `set_static_alacritty_config`: on a capture,
emit `format!("colors: *{}{}{}", caps[2], state_string, caps[4])`; otherwise the
line unchanged. -/
def rewriteLine (state : SunState) (line : List Char) : List Char :=
  match capturesFrom line with
  | some (p, _, s) => COLORS ++ (p ++ (stateToken state ++ s))
  | none => line

/-- Split on the character `\n`; the final segment is the part after the last
`\n` (possibly empty). -/
def splitNl : List Char → List (List Char)
  | [] => [[]]
  | c :: cs =>
    if c = '\n' then [] :: splitNl cs
    else
      match splitNl cs with
      | [] => [[c]]
      | seg :: rest => (c :: seg) :: rest

/-- Remove one trailing `\r`, as Rust's `str::lines` does for a `\r\n`-terminated
line. -/
def stripCr (l : List Char) : List Char :=
  if l.getLast? = some '\r' then l.dropLast else l

/-- Rust `str::lines`: split at `\n`, strip a `\r` before each `\n`, and do not
produce a final empty line for a trailing line ending. -/
def rustLines (content : List Char) : List (List Char) :=
  let segs := splitNl content
  let last := segs.getLastD []
  segs.dropLast.map stripCr ++ (if last = [] then [] else [last])

/-- `format!("{}\n", lines.join("\n"))`: the lines joined by `\n`, with a final
`\n` appended. -/
def joinLines : List (List Char) → List Char
  | [] => ['\n']
  | [l] => l ++ ['\n']
  | l :: l₂ :: ls => l ++ '\n' :: joinLines (l₂ :: ls)

/-- The pure content transformation of `set_static_alacritty_config`: split the
config into lines, rewrite each line through the regex, join with `\n` and
append a trailing `\n`. -/
def set_static_alacritty_config (state : SunState) (config : List Char) : List Char :=
  joinLines ((rustLines config).map (rewriteLine state))

/-- `Regex::new(needle)` (a literal pattern) `.is_match(hay)`: the needle occurs
as a contiguous subsequence anywhere in the haystack. -/
def containsToken (needle : List Char) : List Char → Bool
  | [] => needle.isEmpty
  | c :: cs => needle.isPrefixOf (c :: cs) || containsToken needle cs

/-- The one-line directive written for each state. -/
def directive : SunState → List Char
  | SunState.Up => str "set bg=light\n"
  | SunState.Down => str "set bg=dark\n"

/-- Content written by `get_daylight_config` when `~/.daylight.vim` is absent. -/
def bootstrapContent : List Char := str "set bg=light\n"

/-- `get_daylight_config` on the state-file content: when the file is absent it
prints a notice and creates the file with `set bg=light\n`. Returns (content
after the call, whether the notice was printed). -/
def get_daylight_config : Option (List Char) → List Char × Bool
  | none => (bootstrapContent, true)
  | some c => (c, false)

/-- `get_static_daylight`: read (bootstrapping if absent), then classify `Down`
iff the regex `dark` matches the content.  Returns (state, content after the
call, whether the missing-file notice was printed). -/
def get_static_daylight (file : Option (List Char)) : SunState × List Char × Bool :=
  let r := get_daylight_config file
  (if containsToken DARK r.1 then SunState.Down else SunState.Up, r.1, r.2)

/-- `set_static_nvim_config`: open the state file with
`append(false).create(true).write(true)` — note: no `truncate(true)` — and
`write_all` the directive.  The file is bootstrapped first by
`get_daylight_config`; writing starts at offset 0 and leaves any previous bytes
beyond the directive's length in place. -/
def set_static_nvim_config (state : SunState) (file : Option (List Char)) : List Char :=
  let r := get_daylight_config file
  directive state ++ r.1.drop (directive state).length

/-- The classification step of `get_local_sun_state`: instants on the
`DateTime<Local>` timeline are integers, `now` is the reference instant. -/
def get_local_sun_state (sunrise sunset now : Int) : SunState :=
  if sunrise ≤ now ∧ now < sunset then SunState.Up else SunState.Down

/-- Outcome of each fallible call made for one discovered nvim socket. -/
structure NvimSession where
  connectOk : Bool
  setBgOk : Bool
  themeQueryOk : Bool
  setThemeOk : Bool
deriving DecidableEq, Repr

/-- One iteration of the loop in `set_running_nvim_sessions` succeeds iff every
step (connect, `set bg=...`, `AirlineTheme` query, `AirlineTheme` re-apply)
succeeds; any failing step makes the `?` operator return the error. -/
def processSession (_state : SunState) (sess : NvimSession) : Bool :=
  sess.connectOk && sess.setBgOk && sess.themeQueryOk && sess.setThemeOk

/-- `set_running_nvim_sessions`: process the discovered sessions in order; a
failing step for one session returns its error immediately (sessions after it
are not contacted).  Returns (number of sessions fully updated, whether an
error was returned). -/
def set_running_nvim_sessions (state : SunState) : List NvimSession → Nat × Bool
  | [] => (0, false)
  | sess :: rest =>
    if processSession state sess then
      let r := set_running_nvim_sessions state rest
      (r.1 + 1, r.2)
    else (0, true)

/-- The files and sessions a run of `main` can touch. -/
structure World where
  daylight : Option (List Char)
  alacritty : Option (List Char)
  sessions : List NvimSession

/-- Result of a run of `main`: on success, the state-file content, the alacritty
config content, the number of sessions updated, and whether the missing-file
notice was printed; otherwise which error aborted the run (a session error
aborts before any file is written, a missing alacritty config aborts after the
state file was written). -/
inductive RunResult
  | ok (daylight : List Char) (alacritty : Option (List Char))
      (sessionsUpdated : Nat) (noticed : Bool)
  | sessionFailure
  | alacrittyMissing
deriving DecidableEq, Repr

/-- `main`: `state` is the forced state or the resolver's output; read the
persisted state; if equal, do nothing; otherwise sync sessions (any session
error aborts), write the state file, rewrite the alacritty config (absent file
aborts). -/
def main (force : Option SunState) (resolved : SunState) (w : World) : RunResult :=
  let state := force.getD resolved
  let gs := get_static_daylight w.daylight
  if state = gs.1 then RunResult.ok gs.2.1 w.alacritty 0 gs.2.2
  else
    let r := set_running_nvim_sessions state w.sessions
    if r.2 then RunResult.sessionFailure
    else
      let daylight2 := set_static_nvim_config state (some gs.2.1)
      match w.alacritty with
      | none => RunResult.alacrittyMissing
      | some cfg =>
        RunResult.ok daylight2 (some (set_static_alacritty_config state cfg)) r.1 gs.2.2

/-! ### Helper lemmas about lists -/

theorem isPrefixOf_append (l t : List Char) : l.isPrefixOf (l ++ t) = true := by
  induction l with
  | nil => simp [List.isPrefixOf]
  | cons c cs ih => simp [List.isPrefixOf, ih]

theorem eq_append_drop_of_isPrefixOf {l x : List Char} (h : l.isPrefixOf x = true) :
    x = l ++ x.drop l.length := by
  induction l generalizing x with
  | nil => simp
  | cons c cs ih =>
    cases x with
    | nil => simp [List.isPrefixOf] at h
    | cons b bs =>
      simp only [List.isPrefixOf, Bool.and_eq_true, beq_iff_eq] at h
      obtain ⟨rfl, h2⟩ := h
      simpa using ih h2

theorem isPrefixOf_iff_exists {l x : List Char} :
    l.isPrefixOf x = true ↔ ∃ t, x = l ++ t := by
  constructor
  · intro h
    exact ⟨x.drop l.length, eq_append_drop_of_isPrefixOf h⟩
  · rintro ⟨t, rfl⟩
    exact isPrefixOf_append l t

theorem take_len_append (p x : List Char) : (p ++ x).take p.length = p := by
  induction p with
  | nil => simp
  | cons c cs ih => simp [ih]

theorem drop_len_append (p x : List Char) : (p ++ x).drop p.length = x := by
  induction p with
  | nil => simp
  | cons c cs ih => simp [ih]

theorem drop_len_append_add (p x : List Char) (k : Nat) :
    (p ++ x).drop (p.length + k) = x.drop k := by
  induction p with
  | nil => simp
  | cons c cs ih => simp [Nat.succ_add, ih]

theorem drop_append_le {k : Nat} (T s : List Char) (h : k ≤ T.length) :
    (T ++ s).drop k = T.drop k ++ s := by
  induction T generalizing k with
  | nil =>
    have : k = 0 := Nat.le_zero.mp h
    simp [this]
  | cons c cs ih =>
    cases k with
    | zero => simp
    | succ k' => simpa using ih (Nat.le_of_succ_le_succ h)

theorem takeWhile_of_all {q : Char → Bool} {l : List Char} (h : l.all q = true) :
    l.takeWhile q = l := by
  induction l with
  | nil => rfl
  | cons c cs ih =>
    simp only [List.all_cons, Bool.and_eq_true] at h
    simp [List.takeWhile, h.1, ih h.2]

theorem all_takeWhile (q : Char → Bool) (l : List Char) :
    (l.takeWhile q).all q = true := by
  induction l with
  | nil => rfl
  | cons c cs ih =>
    by_cases h : q c = true
    · simp [List.takeWhile, h, ih]
    · simp [List.takeWhile, Bool.of_not_eq_true h]

theorem map_id_of_mem {f : List Char → List Char} {l : List (List Char)}
    (h : ∀ a ∈ l, f a = a) : l.map f = l := by
  induction l with
  | nil => rfl
  | cons c cs ih =>
    simp only [List.map_cons, h c (List.mem_cons_self c cs)]
    rw [ih fun a ha => h a (List.mem_cons_of_mem c ha)]

/-! ### Lemmas about the regex model -/

theorem isPrefixOf_cons_of_ne {a c : Char} (as l : List Char) (h : a ≠ c) :
    (a :: as).isPrefixOf (c :: l) = false := by
  have hb : (a == c) = false := by
    cases hac : a == c
    · rfl
    · exact absurd (beq_iff_eq.mp hac) h
  simp [List.isPrefixOf, hb]

theorem modeAt_sound {l m s : List Char} (h : modeAt l = some (m, s)) :
    (m = LIGHT ∨ m = DARK) ∧ l = m ++ s := by
  unfold modeAt at h
  split_ifs at h with h1 h2
  · simp only [Option.some.injEq, Prod.mk.injEq] at h
    obtain ⟨rfl, rfl⟩ := h
    have he := eq_append_drop_of_isPrefixOf h1
    exact ⟨Or.inl rfl, he⟩
  · simp only [Option.some.injEq, Prod.mk.injEq] at h
    obtain ⟨rfl, rfl⟩ := h
    have he := eq_append_drop_of_isPrefixOf h2
    exact ⟨Or.inr rfl, he⟩

theorem modeAt_light_append (s : List Char) : modeAt (LIGHT ++ s) = some (LIGHT, s) := by
  have h5 : (LIGHT ++ s).drop 5 = s := drop_len_append LIGHT s
  simp [modeAt, isPrefixOf_append, h5]

theorem modeAt_dark_append (s : List Char) : modeAt (DARK ++ s) = some (DARK, s) := by
  have hfalse : LIGHT.isPrefixOf (DARK ++ s) = false := by
    have : DARK ++ s = 'd' :: (['a', 'r', 'k'] ++ s) := rfl
    rw [this]
    exact isPrefixOf_cons_of_ne _ _ (by decide)
  have h4 : (DARK ++ s).drop 4 = s := drop_len_append DARK s
  simp [modeAt, hfalse, isPrefixOf_append, h4]

theorem modeAt_cons_none {c : Char} (l : List Char) (h1 : c ≠ 'l') (h2 : c ≠ 'd') :
    modeAt (c :: l) = none := by
  have g1 : LIGHT.isPrefixOf (c :: l) = false :=
    isPrefixOf_cons_of_ne _ _ (fun hh => h1 hh.symm)
  have g2 : DARK.isPrefixOf (c :: l) = false :=
    isPrefixOf_cons_of_ne _ _ (fun hh => h2 hh.symm)
  simp [modeAt, g1, g2]

theorem modeAt_append_cons_none {c : Char} (rest s : List Char)
    (h1 : c ≠ 'l') (h2 : c ≠ 'd') : modeAt ((c :: rest) ++ s) = none := by
  rw [List.cons_append]
  exact modeAt_cons_none _ h1 h2

theorem trySplit_sound {run : List Char} {n : Nat} {p m s : List Char}
    (h : trySplit run n = some (p, m, s)) :
    run = p ++ (m ++ s) ∧ (m = LIGHT ∨ m = DARK) ∧ s ≠ [] ∧ p.length = n := by
  unfold trySplit at h
  cases hm : modeAt (run.drop n) with
  | none => rw [hm] at h; exact absurd h (by simp)
  | some ms =>
    obtain ⟨m', s'⟩ := ms
    rw [hm] at h
    by_cases hs : s' = []
    · simp [hs] at h
    · simp only [hs, if_false, Option.some.injEq, Prod.mk.injEq] at h
      obtain ⟨hp, hmeq, hseq⟩ := h
      obtain ⟨hmode, hdrop⟩ := modeAt_sound hm
      rw [hmeq] at hmode
      rw [hmeq, hseq] at hdrop
      rw [hseq] at hs
      have hmne : m ≠ [] := by
        rcases hmode with h' | h' <;> simp [h', LIGHT, DARK]
      have hlt : n < run.length := by
        by_contra hge
        have hnil : run.drop n = [] := List.drop_eq_nil_of_le (by omega)
        rw [hnil] at hdrop
        exact hmne (List.append_eq_nil.mp hdrop.symm).1
      refine ⟨?_, hmode, hs, ?_⟩
      · conv_lhs => rw [← List.take_append_drop n run]
        rw [hdrop, hp]
      · rw [← hp, List.length_take]
        omega

theorem trySplit_none_congr {run₁ run₂ : List Char} {n₁ n₂ : Nat}
    (hd : run₁.drop n₁ = run₂.drop n₂) (h : trySplit run₁ n₁ = none) :
    trySplit run₂ n₂ = none := by
  cases hm : modeAt (run₁.drop n₁) with
  | none => simp [trySplit, ← hd, hm]
  | some ms =>
    obtain ⟨m, s⟩ := ms
    unfold trySplit at h
    rw [hm] at h
    by_cases hs : s = []
    · simp [trySplit, ← hd, hm, hs]
    · simp [hs] at h

theorem trySplit_none_of_modeAt {run : List Char} {n : Nat}
    (h : modeAt (run.drop n) = none) : trySplit run n = none := by
  simp [trySplit, h]

theorem splitSearch_some_max {run : List Char} {n : Nat}
    {r : List Char × List Char × List Char} (h : splitSearch run n = some r) :
    ∃ k, 1 ≤ k ∧ k ≤ n ∧ trySplit run k = some r ∧
      ∀ j, k < j → j ≤ n → trySplit run j = none := by
  induction n with
  | zero => simp [splitSearch] at h
  | succ a ih =>
    unfold splitSearch at h
    cases ht : trySplit run (a + 1) with
    | some r' =>
      rw [ht] at h
      simp only [Option.some.injEq] at h
      subst h
      exact ⟨a + 1, by omega, Nat.le_refl _, ht, fun j hj1 hj2 => by omega⟩
    | none =>
      rw [ht] at h
      obtain ⟨k, h1, h2, h3, h4⟩ := ih h
      refine ⟨k, h1, Nat.le_succ_of_le h2, h3, ?_⟩
      intro j hj1 hj2
      rcases Nat.lt_or_ge j (a + 1) with hlt | hge
      · exact h4 j hj1 (by omega)
      · have : j = a + 1 := by omega
        rw [this]
        exact ht

theorem splitSearch_of_max {run : List Char} {r : List Char × List Char × List Char}
    (k n : Nat) (h1 : 1 ≤ k) (h2 : k ≤ n) (h3 : trySplit run k = some r)
    (h4 : ∀ j, k < j → j ≤ n → trySplit run j = none) :
    splitSearch run n = some r := by
  induction n with
  | zero => omega
  | succ a ih =>
    unfold splitSearch
    rcases Nat.lt_or_ge k (a + 1) with hlt | hge
    · rw [h4 (a + 1) hlt (Nat.le_refl _)]
      exact ih (by omega) fun j hj1 hj2 => h4 j hj1 (by omega)
    · have : k = a + 1 := by omega
      subst this
      rw [h3]

theorem stateToken_cases (t : SunState) : stateToken t = LIGHT ∨ stateToken t = DARK := by
  cases t
  · exact Or.inl rfl
  · exact Or.inr rfl

theorem modeAt_stateToken_append (t : SunState) (s : List Char) :
    modeAt (stateToken t ++ s) = some (stateToken t, s) := by
  rcases stateToken_cases t with h | h <;> rw [h]
  · exact modeAt_light_append s
  · exact modeAt_dark_append s

/-- Key maximality-transfer lemma: if `(p, m, s)` is the split the greedy search
finds in `p ++ m ++ s`, then replacing the mode token `m` by the target token
makes the greedy search find exactly `(p, token, s)` again. -/
theorem splitRun_of_replaced {p m s : List Char} (t : SunState)
    (hm : m = LIGHT ∨ m = DARK) (hp : 1 ≤ p.length) (hs : s ≠ [])
    (hmax : ∀ j, p.length < j → j ≤ (p ++ (m ++ s)).length →
      trySplit (p ++ (m ++ s)) j = none) :
    splitRun (p ++ (stateToken t ++ s)) = some (p, stateToken t, s) := by
  have hmlen : 1 ≤ m.length := by
    rcases hm with h | h <;> simp [h, LIGHT, DARK]
  have hTlen : 1 ≤ (stateToken t).length := by
    rcases stateToken_cases t with h | h <;> simp [h, LIGHT, DARK]
  have hlen' : (p ++ (stateToken t ++ s)).length =
      p.length + ((stateToken t).length + s.length) := by
    simp [List.length_append]
  have hlen : (p ++ (m ++ s)).length = p.length + (m.length + s.length) := by
    simp [List.length_append]
  apply splitSearch_of_max p.length _ hp (by omega)
  · unfold trySplit
    rw [drop_len_append, take_len_append, modeAt_stateToken_append]
    simp [hs]
  · intro j hj1 hj2
    rcases Nat.lt_or_ge j (p.length + (stateToken t).length) with hlt | hge
    · -- j starts strictly inside the substituted token
      apply trySplit_none_of_modeAt
      have hk1 : 1 ≤ j - p.length := by omega
      have hk2 : j - p.length < (stateToken t).length := by omega
      have hdrop : (p ++ (stateToken t ++ s)).drop j =
          (stateToken t).drop (j - p.length) ++ s := by
        have hj : j = p.length + (j - p.length) := by omega
        rw [hj, drop_len_append_add, drop_append_le _ s (by omega)]
        simp [Nat.add_sub_cancel_left]
      rw [hdrop]
      rcases stateToken_cases t with hT | hT <;> rw [hT] at hk2 ⊢
      · have hk5 : j - p.length < 5 := hk2
        interval_cases h : (j - p.length)
        · exact modeAt_append_cons_none _ _ (by decide) (by decide)
        · exact modeAt_append_cons_none _ _ (by decide) (by decide)
        · exact modeAt_append_cons_none _ _ (by decide) (by decide)
        · exact modeAt_append_cons_none _ _ (by decide) (by decide)
      · have hk4 : j - p.length < 4 := hk2
        interval_cases h : (j - p.length)
        · exact modeAt_append_cons_none _ _ (by decide) (by decide)
        · exact modeAt_append_cons_none _ _ (by decide) (by decide)
        · exact modeAt_append_cons_none _ _ (by decide) (by decide)
    · -- j is at or beyond the suffix `s`: map back to the original run
      have hk : j - (p.length + (stateToken t).length) ≤ s.length := by omega
      have hd1 : (p ++ (stateToken t ++ s)).drop j =
          s.drop (j - (p.length + (stateToken t).length)) := by
        have hj : j = (p ++ stateToken t).length + (j - (p.length + (stateToken t).length)) := by
          simp [List.length_append]
          omega
        rw [hj, ← List.append_assoc, drop_len_append_add]
        congr 1
        simp [List.length_append]
      have hd2 : (p ++ (m ++ s)).drop
          ((p ++ m).length + (j - (p.length + (stateToken t).length))) =
          s.drop (j - (p.length + (stateToken t).length)) := by
        rw [← List.append_assoc, drop_len_append_add]
      have horig : trySplit (p ++ (m ++ s))
          ((p ++ m).length + (j - (p.length + (stateToken t).length))) = none := by
        apply hmax
        · simp [List.length_append]
          omega
        · simp [List.length_append]
          omega
      exact trySplit_none_congr (hd2.trans hd1.symm) horig

theorem capturesFrom_cons_true {c : Char} {cs : List Char}
    (h : COLORS.isPrefixOf (c :: cs) = true) :
    capturesFrom (c :: cs) =
      match splitRun (((c :: cs).drop COLORS.length).takeWhile isWordChar) with
      | some r => some r
      | none => capturesFrom cs := by
  simp [capturesFrom, h]

theorem capturesFrom_cons_false {c : Char} {cs : List Char}
    (h : COLORS.isPrefixOf (c :: cs) = false) :
    capturesFrom (c :: cs) = capturesFrom cs := by
  simp [capturesFrom, h]

/-- Any successful capture comes from a successful `splitRun` on an all-word run. -/
theorem capturesFrom_run {l : List Char} {r : List Char × List Char × List Char}
    (h : capturesFrom l = some r) :
    ∃ run, run.all isWordChar = true ∧ splitRun run = some r := by
  induction l with
  | nil => simp [capturesFrom] at h
  | cons c cs ih =>
    cases hc : COLORS.isPrefixOf (c :: cs) with
    | false =>
      rw [capturesFrom_cons_false hc] at h
      exact ih h
    | true =>
      rw [capturesFrom_cons_true hc] at h
      cases hsp : splitRun (((c :: cs).drop COLORS.length).takeWhile isWordChar) with
      | none => rw [hsp] at h; exact ih h
      | some r' =>
        rw [hsp] at h
        simp only [Option.some.injEq] at h
        subst h
        exact ⟨_, all_takeWhile _ _, hsp⟩

/-- Structure of a successful capture: the line decomposes around the matched
reference, the mode is one of the two tokens, and the captured groups are
nonempty word-character runs. -/
theorem capturesFrom_sound {l p m s : List Char} (h : capturesFrom l = some (p, m, s)) :
    (∃ pre post, l = pre ++ (COLORS ++ (p ++ (m ++ (s ++ post))))) ∧
      (m = LIGHT ∨ m = DARK) ∧ p ≠ [] ∧ s ≠ [] ∧
      p.all isWordChar = true ∧ s.all isWordChar = true := by
  induction l with
  | nil => simp [capturesFrom] at h
  | cons c cs ih =>
    cases hc : COLORS.isPrefixOf (c :: cs) with
    | false =>
      rw [capturesFrom_cons_false hc] at h
      obtain ⟨⟨pre, post, h1⟩, hrest⟩ := ih h
      exact ⟨⟨c :: pre, post, by rw [List.cons_append, ← h1]⟩, hrest⟩
    | true =>
      rw [capturesFrom_cons_true hc] at h
      cases hsp : splitRun (((c :: cs).drop COLORS.length).takeWhile isWordChar) with
      | none =>
        rw [hsp] at h
        obtain ⟨⟨pre, post, h1⟩, hrest⟩ := ih h
        exact ⟨⟨c :: pre, post, by rw [List.cons_append, ← h1]⟩, hrest⟩
      | some r' =>
        rw [hsp] at h
        simp only [Option.some.injEq] at h
        subst h
        obtain ⟨k, hk1, hk2, ht, hmax⟩ := splitSearch_some_max hsp
        obtain ⟨hruneq, hmode, hsne, hplen⟩ := trySplit_sound ht
        have hall : (((c :: cs).drop COLORS.length).takeWhile isWordChar).all isWordChar =
            true := all_takeWhile _ _
        rw [hruneq] at hall
        simp only [List.all_append, Bool.and_eq_true] at hall
        have hpne : p ≠ [] := by
          intro hnil
          rw [hnil] at hplen
          simp at hplen
          omega
        refine ⟨⟨[], ((c :: cs).drop COLORS.length).dropWhile isWordChar, ?_⟩,
          hmode, hpne, hsne, hall.1, hall.2.2⟩
        have hcol : (c :: cs) = COLORS ++ (c :: cs).drop COLORS.length :=
          eq_append_drop_of_isPrefixOf hc
        have htw : ((c :: cs).drop COLORS.length).takeWhile isWordChar ++
            ((c :: cs).drop COLORS.length).dropWhile isWordChar =
            (c :: cs).drop COLORS.length := List.takeWhile_append_dropWhile _ _
        rw [List.nil_append]
        conv_lhs => rw [hcol, ← htw, hruneq]
        simp [List.append_assoc]

/-- Rewriting a line is idempotent. -/
theorem rewriteLine_idem (t : SunState) (l : List Char) :
    rewriteLine t (rewriteLine t l) = rewriteLine t l := by
  cases h : capturesFrom l with
  | none => simp [rewriteLine, h]
  | some r =>
    obtain ⟨p, m, s⟩ := r
    obtain ⟨run, hall, hsp⟩ := capturesFrom_run h
    obtain ⟨k, hk1, hk2, ht, hmax⟩ := splitSearch_some_max hsp
    obtain ⟨hruneq, hmode, hsne, hplen⟩ := trySplit_sound ht
    subst hruneq
    rw [← hplen] at hk1 hmax
    have hksp : splitRun (p ++ (stateToken t ++ s)) = some (p, stateToken t, s) :=
      splitRun_of_replaced t hmode hk1 hsne fun j hj1 hj2 =>
        hmax j hj1 (by omega)
    simp only [List.all_append, Bool.and_eq_true] at hall
    have hall' : (p ++ (stateToken t ++ s)).all isWordChar = true := by
      have hT : (stateToken t).all isWordChar = true := by
        rcases stateToken_cases t with hT' | hT' <;> rw [hT'] <;> decide
      simp [List.all_append, hall.1, hall.2.2, hT]
    have hcap : capturesFrom (COLORS ++ (p ++ (stateToken t ++ s))) =
        some (p, stateToken t, s) := by
      have hpre : COLORS.isPrefixOf (COLORS ++ (p ++ (stateToken t ++ s))) = true :=
        isPrefixOf_append _ _
      cases hco : COLORS ++ (p ++ (stateToken t ++ s)) with
      | nil => exact absurd hco (by simp [COLORS])
      | cons c cs =>
        rw [capturesFrom_cons_true (hco ▸ hpre)]
        have hdrop9 : (c :: cs).drop COLORS.length = p ++ (stateToken t ++ s) := by
          rw [← hco]
          exact drop_len_append _ _
        rw [hdrop9, takeWhile_of_all hall', hksp]
    simp only [rewriteLine, h, hcap]

/-! ### Lemmas about line splitting and joining -/

theorem splitNl_ne_nil (l : List Char) : splitNl l ≠ [] := by
  cases l with
  | nil => simp [splitNl]
  | cons c cs =>
    by_cases h : c = '\n'
    · simp [splitNl, h]
    · simp only [splitNl, h, if_false]
      cases splitNl cs <;> simp

theorem mem_splitNl {l : List Char} {seg : List Char} (hseg : seg ∈ splitNl l) :
    ∀ c ∈ seg, c ∈ l ∧ c ≠ '\n' := by
  induction l generalizing seg with
  | nil =>
    simp [splitNl] at hseg
    subst hseg
    simp
  | cons a as ih =>
    by_cases h : a = '\n'
    · simp only [splitNl, h, if_true] at hseg
      rcases List.mem_cons.mp hseg with h1 | h1
      · subst h1; simp
      · intro c hc
        obtain ⟨hmem, hne⟩ := ih h1 c hc
        exact ⟨List.mem_cons_of_mem _ hmem, hne⟩
    · simp only [splitNl, h, if_false] at hseg
      cases hsp : splitNl as with
      | nil => exact absurd hsp (splitNl_ne_nil as)
      | cons seg₀ rest =>
        rw [hsp] at hseg
        rcases List.mem_cons.mp hseg with h1 | h1
        · subst h1
          intro c hc
          rcases List.mem_cons.mp hc with h2 | h2
          · subst h2; exact ⟨List.mem_cons_self _ _, h⟩
          · obtain ⟨hmem, hne⟩ := ih (hsp ▸ List.mem_cons_self seg₀ rest) c h2
            exact ⟨List.mem_cons_of_mem _ hmem, hne⟩
        · intro c hc
          obtain ⟨hmem, hne⟩ := ih (hsp ▸ List.mem_cons_of_mem seg₀ h1) c hc
          exact ⟨List.mem_cons_of_mem _ hmem, hne⟩

theorem splitNl_no_newline {l : List Char} (h : '\n' ∉ l) : splitNl l = [l] := by
  induction l with
  | nil => rfl
  | cons c cs ih =>
    have hc : c ≠ '\n' := fun hh => h (hh ▸ List.mem_cons_self c cs)
    have hcs : '\n' ∉ cs := fun hh => h (List.mem_cons_of_mem c hh)
    simp [splitNl, hc, ih hcs]

theorem splitNl_append_newline {l : List Char} (r : List Char) (h : '\n' ∉ l) :
    splitNl (l ++ '\n' :: r) = l :: splitNl r := by
  induction l with
  | nil => simp [splitNl]
  | cons c cs ih =>
    have hc : c ≠ '\n' := fun hh => h (hh ▸ List.mem_cons_self c cs)
    have hcs : '\n' ∉ cs := fun hh => h (List.mem_cons_of_mem c hh)
    rw [List.cons_append]
    simp only [splitNl, hc, if_false]
    rw [ih hcs]

theorem splitNl_joinLines {ls : List (List Char)} (hne : ls ≠ [])
    (h : ∀ l ∈ ls, '\n' ∉ l) : splitNl (joinLines ls) = ls ++ [[]] := by
  induction ls with
  | nil => exact absurd rfl hne
  | cons l ls' ih =>
    cases ls' with
    | nil =>
      have hl : '\n' ∉ l := h l (List.mem_cons_self _ _)
      have : joinLines [l] = l ++ '\n' :: [] := rfl
      rw [this, splitNl_append_newline [] hl]
      rfl
    | cons l₂ ls'' =>
      have hl : '\n' ∉ l := h l (List.mem_cons_self _ _)
      have hrec : ∀ x ∈ l₂ :: ls'', '\n' ∉ x := fun x hx => h x (List.mem_cons_of_mem _ hx)
      have : joinLines (l :: l₂ :: ls'') = l ++ '\n' :: joinLines (l₂ :: ls'') := rfl
      rw [this, splitNl_append_newline _ hl, ih (by simp) hrec]
      rfl

theorem mem_of_getLast?_eq_some {l : List Char} {a : Char} (h : l.getLast? = some a) :
    a ∈ l := by
  induction l with
  | nil => simp at h
  | cons c cs ih =>
    cases cs with
    | nil =>
      simp [List.getLast?] at h
      simp [h]
    | cons d ds =>
      rw [List.getLast?_cons_cons] at h
      exact List.mem_cons_of_mem _ (ih h)

theorem stripCr_of_no_cr {l : List Char} (h : '\r' ∉ l) : stripCr l = l := by
  unfold stripCr
  split_ifs with hl
  · exact absurd (mem_of_getLast?_eq_some hl) h
  · rfl

theorem mem_stripCr {l : List Char} {c : Char} (h : c ∈ stripCr l) : c ∈ l := by
  unfold stripCr at h
  split_ifs at h
  · exact (List.dropLast_sublist l).mem h
  · exact h

theorem getLastD_mem_of_ne_nil {α : Type} (l : List α) (d : α) (h : l ≠ []) :
    l.getLastD d ∈ l := by
  induction l with
  | nil => exact absurd rfl h
  | cons c cs ih =>
    cases cs with
    | nil => simp
    | cons e es =>
      have : (c :: e :: es).getLastD d = (e :: es).getLastD d := by
        simp [List.getLastD]
      rw [this]
      exact List.mem_cons_of_mem _ (ih (by simp))

/-- Every line produced by `rustLines` consists of characters of the content and
contains no newline. -/
theorem mem_rustLines {content seg : List Char} (hseg : seg ∈ rustLines content) :
    ∀ c ∈ seg, c ∈ content ∧ c ≠ '\n' := by
  unfold rustLines at hseg
  simp only at hseg
  rcases List.mem_append.mp hseg with h | h
  · obtain ⟨seg₀, hseg₀, rfl⟩ := List.mem_map.mp h
    have hseg₀' : seg₀ ∈ splitNl content :=
      (List.dropLast_sublist (splitNl content)).mem hseg₀
    intro c hc
    exact mem_splitNl hseg₀' c (mem_stripCr hc)
  · by_cases hlast : (splitNl content).getLastD [] = []
    · rw [if_pos hlast] at h
      simp at h
    · rw [if_neg hlast] at h
      rcases List.mem_cons.mp h with h1 | h1
      · subst h1
        intro c hc
        exact mem_splitNl (getLastD_mem_of_ne_nil _ _ (splitNl_ne_nil content)) c hc
      · simp at h1

/-- Re-splitting a freshly joined list of clean lines recovers the lines. -/
theorem rustLines_joinLines {ls : List (List Char)} (hne : ls ≠ [])
    (h : ∀ l ∈ ls, '\n' ∉ l ∧ '\r' ∉ l) : rustLines (joinLines ls) = ls := by
  unfold rustLines
  rw [splitNl_joinLines hne fun l hl => (h l hl).1]
  simp only [List.dropLast_concat, List.getLastD_concat, if_true, List.append_nil]
  exact map_id_of_mem fun a ha => stripCr_of_no_cr (h a ha).2

theorem map_eq_map_of_mem {α β : Type} {f g : α → β} {l : List α}
    (h : ∀ a ∈ l, f a = g a) : l.map f = l.map g := by
  induction l with
  | nil => rfl
  | cons c cs ih =>
    simp only [List.map_cons, h c (List.mem_cons_self c cs)]
    rw [ih fun a ha => h a (List.mem_cons_of_mem c ha)]

theorem all_word_no_newline_cr {p : List Char} (h : p.all isWordChar = true) :
    '\n' ∉ p ∧ '\r' ∉ p := by
  rw [List.all_eq_true] at h
  constructor <;> intro hm <;> exact absurd (h _ hm) (by decide)

/-- Rewriting a newline-free, carriage-return-free line keeps it so. -/
theorem rewriteLine_chars (t : SunState) {l : List Char}
    (hn : '\n' ∉ l) (hr : '\r' ∉ l) :
    '\n' ∉ rewriteLine t l ∧ '\r' ∉ rewriteLine t l := by
  cases h : capturesFrom l with
  | none =>
    simp only [rewriteLine, h]
    exact ⟨hn, hr⟩
  | some r =>
    obtain ⟨p, m, s⟩ := r
    obtain ⟨_, _, _, _, hpw, hsw⟩ := capturesFrom_sound h
    have hTw : (stateToken t).all isWordChar = true := by
      rcases stateToken_cases t with h' | h' <;> rw [h'] <;> decide
    have key : ∀ c, c ∈ rewriteLine t l → c ∈ COLORS ∨ isWordChar c = true := by
      simp only [rewriteLine, h]
      intro c hc
      rcases List.mem_append.mp hc with h1 | h1
      · exact Or.inl h1
      rcases List.mem_append.mp h1 with h2 | h2
      · exact Or.inr (List.all_eq_true.mp hpw _ h2)
      rcases List.mem_append.mp h2 with h3 | h3
      · exact Or.inr (List.all_eq_true.mp hTw _ h3)
      · exact Or.inr (List.all_eq_true.mp hsw _ h3)
    constructor <;> intro hm <;> rcases key _ hm with hk | hk
    · revert hk; decide
    · exact absurd hk (by decide)
    · revert hk; decide
    · exact absurd hk (by decide)

/-- The loop in `set_running_nvim_sessions` stops at the first failing session:
the sessions before it are counted as updated, the error flag is set, and the
sessions after it are never reached. -/
theorem sync_aborts (st : SunState) (pre : List NvimSession) (sess : NvimSession)
    (rest : List NvimSession) (hfail : processSession st sess = false)
    (hok : ∀ x ∈ pre, processSession st x = true) :
    set_running_nvim_sessions st (pre ++ sess :: rest) = (pre.length, true) := by
  induction pre with
  | nil => simp [set_running_nvim_sessions, hfail]
  | cons a as ih =>
    have ha : processSession st a = true := hok a (List.mem_cons_self a as)
    have ih' := ih fun x hx => hok x (List.mem_cons_of_mem a hx)
    simp [set_running_nvim_sessions, ha, ih']

theorem containsToken_iff (n l : List Char) :
    containsToken n l = true ↔ ∃ x y, l = x ++ (n ++ y) := by
  induction l with
  | nil =>
    simp only [containsToken, List.isEmpty_iff]
    constructor
    · intro h
      exact ⟨[], [], by simp [h]⟩
    · rintro ⟨x, y, hxy⟩
      have := List.append_eq_nil.mp hxy.symm
      exact (List.append_eq_nil.mp this.2).1
  | cons c cs ih =>
    simp only [containsToken, Bool.or_eq_true]
    constructor
    · rintro (h | h)
      · obtain ⟨t', ht⟩ := isPrefixOf_iff_exists.mp h
        exact ⟨[], t', by simp [ht]⟩
      · obtain ⟨x, y, hxy⟩ := ih.mp h
        exact ⟨c :: x, y, by simp [hxy]⟩
    · rintro ⟨x, y, hxy⟩
      cases x with
      | nil =>
        simp only [List.nil_append] at hxy
        exact Or.inl (isPrefixOf_iff_exists.mpr ⟨y, hxy⟩)
      | cons d ds =>
        simp only [List.cons_append, List.cons.injEq] at hxy
        exact Or.inr (ih.mpr ⟨ds, y, hxy.2⟩)

/-! ### Claim theorems -/

/-- C1: [corrected] The spec claims a failure while processing one discovered
nvim session is caught locally.  In the code every step uses `?`, so a failure
for one session propagates out of `set_running_nvim_sessions` and, through
`main`'s `?`, aborts the run: the sessions before the failing one have been
updated, the failing session stops the loop, and the sessions after it are
never contacted. -/
theorem claim_C1 (st : SunState) (pre : List NvimSession) (sess : NvimSession)
    (rest : List NvimSession) (hfail : processSession st sess = false)
    (hok : ∀ x ∈ pre, processSession st x = true) :
    set_running_nvim_sessions st (pre ++ sess :: rest) = (pre.length, true) ∧
    (∀ force resolved w, w.sessions = pre ++ sess :: rest →
      force.getD resolved = st → st ≠ (get_static_daylight w.daylight).1 →
      main force resolved w = RunResult.sessionFailure) := by
  have hsync := sync_aborts st pre sess rest hfail hok
  refine ⟨hsync, ?_⟩
  intro force resolved w hw hf hne
  simp [main, hf, hw, hne, hsync]

theorem claim_C1_witness :
    set_running_nvim_sessions SunState.Up
      ([⟨true, true, true, true⟩] ++
        (⟨false, true, true, true⟩ : NvimSession) :: [⟨true, true, true, true⟩]) =
      (1, true) :=
  (claim_C1 SunState.Up [⟨true, true, true, true⟩] ⟨false, true, true, true⟩
    [⟨true, true, true, true⟩] (by decide) (by decide)).1

theorem claim_C1_counterexample :
    main none SunState.Up
      ⟨some (str "set bg=dark\n"), some (str "x\n"),
        [⟨false, true, true, true⟩, ⟨true, true, true, true⟩]⟩ =
      RunResult.sessionFailure ∧
    processSession SunState.Up ⟨true, true, true, true⟩ = true := by decide

/-- C2: [confirmed] The solar classifier returns `Up` exactly when
`sunrise ≤ now < sunset` and `Down` otherwise; `now = sunrise` (with a
nonempty daylight interval) gives `Up` and `now = sunset` gives `Down`. -/
theorem claim_C2 (sunrise sunset now : Int) :
    (get_local_sun_state sunrise sunset now = SunState.Up ↔
      sunrise ≤ now ∧ now < sunset) ∧
    (get_local_sun_state sunrise sunset now = SunState.Down ↔
      ¬(sunrise ≤ now ∧ now < sunset)) ∧
    (sunrise < sunset → get_local_sun_state sunrise sunset sunrise = SunState.Up) ∧
    get_local_sun_state sunrise sunset sunset = SunState.Down := by
  refine ⟨?_, ?_, ?_, ?_⟩ <;> unfold get_local_sun_state
  · split_ifs with h <;> simp [h]
  · split_ifs with h <;> simp [h]
  · intro h
    rw [if_pos ⟨le_refl _, h⟩]
  · rw [if_neg]
    rintro ⟨_, h⟩
    exact lt_irrefl _ h

theorem claim_C2_witness :
    get_local_sun_state 0 100 0 = SunState.Up ∧
    get_local_sun_state 0 100 100 = SunState.Down :=
  ⟨(claim_C2 0 100 0).2.2.1 (by decide), (claim_C2 0 100 100).2.2.2⟩

/-- C3: [confirmed] When the target state equals the state read from the
persisted store, `main` stops after the read: the alacritty config is
untouched, the state-file content stays as read, and zero sessions are
contacted. -/
theorem claim_C3 (force : Option SunState) (resolved : SunState) (w : World)
    (h : force.getD resolved = (get_static_daylight w.daylight).1) :
    main force resolved w =
      RunResult.ok (get_static_daylight w.daylight).2.1 w.alacritty 0
        (get_static_daylight w.daylight).2.2 := by
  simp [main, h]

theorem claim_C3_witness :
    main none SunState.Up
      ⟨some (str "set bg=light\n"), some (str "colors: *adark_b\n"),
        [⟨true, true, true, true⟩]⟩ =
      RunResult.ok (str "set bg=light\n") (some (str "colors: *adark_b\n")) 0 false :=
  claim_C3 none SunState.Up
    ⟨some (str "set bg=light\n"), some (str "colors: *adark_b\n"),
      [⟨true, true, true, true⟩]⟩ (by decide)

/-- C4: [corrected] On a matching line the rewrite emits exactly
`colors: *<prefix><target><suffix>` — the captured groups are preserved
verbatim, but any bytes of the line before or after the matched reference
(leading indentation, trailing comments) are discarded, contrary to the claim;
non-matching lines are emitted unchanged. -/
theorem claim_C4 (t : SunState) (line p m s : List Char)
    (h : capturesFrom line = some (p, m, s)) :
    (∃ pre post, line = pre ++ (COLORS ++ (p ++ (m ++ (s ++ post))))) ∧
      (m = LIGHT ∨ m = DARK) ∧
      rewriteLine t line = COLORS ++ (p ++ (stateToken t ++ s)) ∧
      (∀ other, capturesFrom other = none → rewriteLine t other = other) := by
  obtain ⟨hdec, hmode, _, _, _, _⟩ := capturesFrom_sound h
  exact ⟨hdec, hmode, by simp [rewriteLine, h], fun other ho => by simp [rewriteLine, ho]⟩

theorem claim_C4_witness :
    rewriteLine SunState.Down (str "  colors: *alight_b") =
      COLORS ++ (['a'] ++ (stateToken SunState.Down ++ ['_', 'b'])) :=
  (claim_C4 SunState.Down (str "  colors: *alight_b") ['a'] LIGHT ['_', 'b']
    (by decide)).2.2.1

theorem claim_C4_counterexample :
    rewriteLine SunState.Down (str "  colors: *alight_b") = str "colors: *adark_b" ∧
    rewriteLine SunState.Down (str "  colors: *alight_b") ≠ str "  colors: *adark_b" := by
  decide

/-- C5: [corrected] At the level of the line list the rewrite preserves the
number of lines, their order, and every non-matching line; the full content is
byte-identical for a zero-match document only when the document already equals
its split lines rejoined with `\n` and a trailing `\n` (an empty or
non-newline-terminated file gains a trailing newline). -/
theorem claim_C5 (t : SunState) (content : List Char) :
    ((rustLines content).map (rewriteLine t)).length = (rustLines content).length ∧
    (∀ (i : Nat) (l : List Char), (rustLines content)[i]? = some l → capturesFrom l = none →
      ((rustLines content).map (rewriteLine t))[i]? = some l) ∧
    ((∀ l ∈ rustLines content, capturesFrom l = none) →
      joinLines (rustLines content) = content →
      set_static_alacritty_config t content = content) := by
  refine ⟨List.length_map _ _, ?_, ?_⟩
  · intro i l hi hcap
    rw [List.getElem?_map, hi]
    simp [rewriteLine, hcap]
  · intro hall hjoin
    unfold set_static_alacritty_config
    rw [map_id_of_mem fun a ha => by simp [rewriteLine, hall a ha], hjoin]

theorem claim_C5_witness :
    set_static_alacritty_config SunState.Up (str "a\nb\n") = str "a\nb\n" :=
  (claim_C5 SunState.Up (str "a\nb\n")).2.2 (by decide) (by decide)

theorem claim_C5_counterexample :
    set_static_alacritty_config SunState.Up (str "x") = str "x\n" ∧
    (rustLines (str "x")).all (fun l => (capturesFrom l).isNone) = true ∧
    str "x\n" ≠ str "x" := by decide

/-- C6: [confirmed] Reading the persisted store: an absent state file is
created with `set bg=light\n`, a notice is printed, and `Up` is returned; a
present file is classified `Down` exactly when its content contains the
substring `dark`, else `Up`, and is not modified. -/
theorem claim_C6 :
    get_static_daylight none = (SunState.Up, str "set bg=light\n", true) ∧
    (∀ c, (get_static_daylight (some c)).1 = SunState.Down ↔
      ∃ x y, c = x ++ (DARK ++ y)) ∧
    (∀ c, (get_static_daylight (some c)).2 = (c, false)) := by
  refine ⟨by decide, ?_, fun c => rfl⟩
  intro c
  by_cases h : containsToken DARK c = true
  · have h1 : (get_static_daylight (some c)).1 = SunState.Down := by
      simp [get_static_daylight, get_daylight_config, h]
    exact iff_of_true h1 ((containsToken_iff DARK c).mp h)
  · simp only [get_static_daylight, get_daylight_config, h, if_false]
    constructor
    · intro hh
      exact absurd hh (by decide)
    · intro hh
      exact absurd ((containsToken_iff DARK c).mpr hh) h

theorem claim_C6_witness :
    (get_static_daylight (some (str "set bg=dark\n"))).1 = SunState.Down :=
  (claim_C6.2.1 (str "set bg=dark\n")).mpr ⟨str "set bg=", str "\n", by decide⟩

/-- C7: [code_bug] `set_static_nvim_config` opens the state file without
`truncate(true)`, so writing a shorter directive over a longer previous
content leaves the residual bytes: writing `Down` over `set bg=light\n`
produces `set bg=dark\n\n` rather than exactly the directive line. -/
theorem claim_C7 :
    set_static_nvim_config SunState.Down (some (str "set bg=light\n")) =
      str "set bg=dark\n\n" ∧
    str "set bg=dark\n\n" ≠ directive SunState.Down := by decide

/-- C8: [code_bug] Because the write does not truncate, the write/read
round-trip fails for a prior content whose bytes beyond the directive length
contain `dark`: writing `Up` over `set bg=light\ndark` leaves the trailing
`dark` in place and the subsequent read returns `Down`. -/
theorem claim_C8 :
    (get_static_daylight
      (some (set_static_nvim_config SunState.Up (some (str "set bg=light\ndark"))))).1 =
      SunState.Down ∧ SunState.Down ≠ SunState.Up := by decide

/-- C9: [corrected] The rewrite is idempotent for carriage-return-free content;
content using `\r\n` line endings is normalized differently by the first and
second pass, so idempotence fails in general. -/
theorem claim_C9 (t : SunState) (content : List Char) (h : '\r' ∉ content) :
    set_static_alacritty_config t (set_static_alacritty_config t content) =
      set_static_alacritty_config t content := by
  by_cases hnil : rustLines content = []
  · unfold set_static_alacritty_config
    rw [hnil]
    simp only [List.map_nil]
    have h1 : joinLines ([] : List (List Char)) = ['\n'] := rfl
    rw [h1]
    have h2 : rustLines ['\n'] = [[]] := by decide
    rw [h2]
    have h3 : rewriteLine t [] = [] := by
      simp [rewriteLine, capturesFrom]
    simp [h3]
    rfl
  · unfold set_static_alacritty_config
    have hchars : ∀ l ∈ rustLines content, '\n' ∉ l ∧ '\r' ∉ l := by
      intro l hl
      constructor
      · intro hm
        exact (mem_rustLines hl _ hm).2 rfl
      · intro hm
        exact h (mem_rustLines hl _ hm).1
    have hchars' : ∀ l ∈ (rustLines content).map (rewriteLine t),
        '\n' ∉ l ∧ '\r' ∉ l := by
      intro l hl
      obtain ⟨l₀, hl₀, rfl⟩ := List.mem_map.mp hl
      exact rewriteLine_chars t (hchars l₀ hl₀).1 (hchars l₀ hl₀).2
    have hmapne : (rustLines content).map (rewriteLine t) ≠ [] := by
      simpa using hnil
    rw [rustLines_joinLines hmapne hchars', List.map_map,
      @map_eq_map_of_mem _ _ (rewriteLine t ∘ rewriteLine t) (rewriteLine t)
        (rustLines content) (fun a _ => rewriteLine_idem t a)]

theorem claim_C9_witness :
    set_static_alacritty_config SunState.Down
        (set_static_alacritty_config SunState.Down (str "colors: *alight_b\nother\n")) =
      set_static_alacritty_config SunState.Down (str "colors: *alight_b\nother\n") :=
  claim_C9 SunState.Down (str "colors: *alight_b\nother\n") (by decide)

theorem claim_C9_counterexample :
    set_static_alacritty_config SunState.Up
        (set_static_alacritty_config SunState.Up (str "a\r\r\n")) ≠
      set_static_alacritty_config SunState.Up (str "a\r\r\n") := by decide

/-- C10: [confirmed] The pattern requires a nonempty word-character prefix and
suffix around the mode token: every successful split has nonempty captured
groups, and the lines `colors: *solarized_dark` (empty suffix) and
`colors: *light_theme` (empty prefix) are left unchanged. -/
theorem claim_C10 :
    (∀ run p m s, splitRun run = some (p, m, s) →
      p ≠ [] ∧ s ≠ [] ∧ (m = LIGHT ∨ m = DARK)) ∧
    (∀ t, rewriteLine t (str "colors: *solarized_dark") = str "colors: *solarized_dark" ∧
      rewriteLine t (str "colors: *light_theme") = str "colors: *light_theme") := by
  constructor
  · intro run p m s h
    obtain ⟨k, hk1, _, ht, _⟩ := splitSearch_some_max h
    obtain ⟨_, hmode, hs, hplen⟩ := trySplit_sound ht
    refine ⟨?_, hs, hmode⟩
    intro hnil
    rw [hnil] at hplen
    simp at hplen
    omega
  · intro t
    cases t <;> exact ⟨by decide, by decide⟩

theorem claim_C10_witness :
    ['a'] ≠ ([] : List Char) ∧ ['_', 'b'] ≠ ([] : List Char) ∧
      (LIGHT = LIGHT ∨ LIGHT = DARK) :=
  claim_C10.1 (str "alight_b") ['a'] LIGHT ['_', 'b'] (by decide)

end AutoDaytime
